import Mathlib

/-!
Verification development for the backtesting toolkit
(`Codes/Portfolio.py` and `Codes/Single_Asset.py`).

Conventions of the embedding:
* dates are natural numbers (the trading calendar is any strictly
  ascending list of naturals);
* prices, weights, shares and NAV are rationals (`ℚ`), standing for the
  Python floats; a vector over the assets is a function `Fin m → ℚ`;
* the scipy root finder `newton` is an oracle passed to the engine:
  `SolverT` models a call that converged to some value, `SolverE`
  additionally models non-convergence (`none`), which in the Python code
  escapes as an uncaught `RuntimeError`;
* `pandas` frames keyed by date become association lists
  `List (ℕ × α)`, and `DataFrame.loc` assignment becomes `setLoc`.
-/

open BigOperators

/-- Per-date state of `Portfolio.generate_nav`: one row of the `shares`,
`nav`, `fee`, `actual_weight` and `turnover_ratio` frames. -/
structure NavState (m : ℕ) where
  shares : Fin m → ℚ
  nav : ℚ
  fee : ℚ
  actualWeight : Fin m → ℚ
  turnover : Fin m → ℚ

/-- Default state used as the out-of-range value of list lookups. -/
def dfltState (m : ℕ) : NavState m :=
  { shares := fun _ => 0, nav := 0, fee := 0,
    actualWeight := fun _ => 0, turnover := fun _ => 0 }

/-- A converged call of `scipy.optimize.newton`: arguments are
shares-before, target weight, prices at the rebalance date, and NAV right
before rebalancing (the fee-rate vector is fixed by the run). -/
def SolverT (m : ℕ) : Type :=
  (Fin m → ℚ) → (Fin m → ℚ) → (Fin m → ℚ) → ℚ → ℚ

/-- A call of `scipy.optimize.newton` that may fail to converge
(`none`), in which case the Python `RuntimeError` propagates. -/
def SolverE (m : ℕ) : Type :=
  (Fin m → ℚ) → (Fin m → ℚ) → (Fin m → ℚ) → ℚ → Option ℚ

/-- `Portfolio.calculate_fee` (Portfolio.py line 138):
`sum(abs(sb - sa) * f * pa)`. -/
def calculate_fee {m : ℕ} (sb sa f pa : Fin m → ℚ) : ℚ :=
  ∑ j, |sb j - sa j| * f j * pa j

/-- `nav_equation` (Portfolio.py line 179):
`calculate_fee(sb, (wa/pa)*x, f, pa) - navb + x`. -/
def nav_equation {m : ℕ} (x : ℚ) (sb wa pa f : Fin m → ℚ) (navb : ℚ) : ℚ :=
  calculate_fee sb (fun j => wa j / pa j * x) f pa - navb + x

/-- The start-date row of `generate_nav` (Portfolio.py lines 185-192). -/
def initState {m : ℕ} (f p0 w0 : Fin m → ℚ) : NavState m :=
  { actualWeight := w0
    nav := 1
    shares := fun j => w0 j / p0 j
    fee := calculate_fee (fun _ => 0) (fun j => w0 j / p0 j) f p0
    turnover := fun j => |w0 j| }

/-- One transition of `generate_nav` for a date with index `idx > 0`
(Portfolio.py lines 194-223), with the root of `nav_equation` supplied by
a converged solver call. -/
def navStepT {m : ℕ} (f : Fin m → ℚ) (sol : SolverT m) (prev : NavState m)
    (pPrev pCur : Fin m → ℚ) (wRow : Option (Fin m → ℚ)) : NavState m :=
  match wRow with
  | none =>
      -- not a rebalancing date (lines 196-205)
      let nav' := prev.nav + ∑ j, prev.shares j * (pCur j - pPrev j)
      { shares := prev.shares
        fee := 0
        turnover := fun _ => 0
        nav := nav'
        actualWeight := fun j => prev.shares j * pCur j / nav' }
  | some wa =>
      -- a rebalancing date (lines 207-223)
      let navb := prev.nav + ∑ j, prev.shares j * (pCur j - pPrev j)
      let x := sol prev.shares wa pCur navb
      { fee := navb - x
        nav := x
        actualWeight := wa
        shares := fun j => wa j * x / pCur j
        turnover := fun j => |wa j - prev.actualWeight j| }

/-- Iteration of `navStepT` over the dates after the start date. -/
def navRunTAux {m : ℕ} (f : Fin m → ℚ) (sol : SolverT m)
    (w : ℕ → Option (Fin m → ℚ)) :
    NavState m → (Fin m → ℚ) → ℕ → List (Fin m → ℚ) → List (NavState m)
  | _, _, _, [] => []
  | prev, pPrev, idx, p :: rest =>
      navStepT f sol prev pPrev p (w idx) ::
        navRunTAux f sol w (navStepT f sol prev pPrev p (w idx)) p (idx + 1) rest

/-- `Portfolio.generate_nav` as a state machine over an already
normalized price list, producing one `NavState` per date.  `w idx` is the
weight-schedule row at the date with position `idx`, if any; the schedule
must have a row at the first date (guaranteed by `Portfolio.slice`), else
the Python code would raise a `KeyError` and we return junk. -/
def navRunT {m : ℕ} (f : Fin m → ℚ) (sol : SolverT m)
    (w : ℕ → Option (Fin m → ℚ)) : List (Fin m → ℚ) → List (NavState m)
  | [] => []
  | p0 :: rest =>
      match w 0 with
      | none => []
      | some w0 =>
          initState f p0 w0 :: navRunTAux f sol w (initState f p0 w0) p0 1 rest

/-- One transition of `generate_nav` with the solver allowed to fail:
`none` models `scipy.optimize.newton` raising `RuntimeError`, which the
Python code does not catch. -/
def navStep {m : ℕ} (f : Fin m → ℚ) (sol : SolverE m) (prev : NavState m)
    (pPrev pCur : Fin m → ℚ) (wRow : Option (Fin m → ℚ)) :
    Except String (NavState m) :=
  match wRow with
  | none =>
      let nav' := prev.nav + ∑ j, prev.shares j * (pCur j - pPrev j)
      .ok { shares := prev.shares
            fee := 0
            turnover := fun _ => 0
            nav := nav'
            actualWeight := fun j => prev.shares j * pCur j / nav' }
  | some wa =>
      let navb := prev.nav + ∑ j, prev.shares j * (pCur j - pPrev j)
      match sol prev.shares wa pCur navb with
      | none => .error "RuntimeError: failed to converge"
      | some x =>
          .ok { fee := navb - x
                nav := x
                actualWeight := wa
                shares := fun j => wa j * x / pCur j
                turnover := fun j => |wa j - prev.actualWeight j| }

/-- Iteration of `navStep` over the dates after the start date. -/
def navRunAux {m : ℕ} (f : Fin m → ℚ) (sol : SolverE m)
    (w : ℕ → Option (Fin m → ℚ)) :
    NavState m → (Fin m → ℚ) → ℕ → List (Fin m → ℚ) →
      Except String (List (NavState m))
  | _, _, _, [] => .ok []
  | prev, pPrev, idx, p :: rest =>
      match navStep f sol prev pPrev p (w idx) with
      | .error e => .error e
      | .ok s => (navRunAux f sol w s p (idx + 1) rest).map (s :: ·)

/-- `Portfolio.generate_nav` with explicit propagation of the solver's
`RuntimeError`. -/
def navRun {m : ℕ} (f : Fin m → ℚ) (sol : SolverE m)
    (w : ℕ → Option (Fin m → ℚ)) : List (Fin m → ℚ) →
      Except String (List (NavState m))
  | [] => .ok []
  | p0 :: rest =>
      match w 0 with
      | none => .error "KeyError: no weight row at the first date"
      | some w0 =>
          (navRunAux f sol w (initState f p0 w0) p0 1 rest).map
            (initState f p0 w0 :: ·)

/-- Normalization of the price frame at the top of `generate_nav`
(Portfolio.py line 146): `data = data / data.iloc[0]`. -/
def normalizePrices {m : ℕ} : List (Fin m → ℚ) → List (Fin m → ℚ)
  | [] => []
  | p0 :: rest => (p0 :: rest).map (fun p j => p j / p0 j)

/-- `Portfolio.generate_nav` end to end: normalize prices, then run the
per-date state machine. -/
def generate_nav {m : ℕ} (f : Fin m → ℚ) (sol : SolverE m)
    (w : ℕ → Option (Fin m → ℚ)) (prices : List (Fin m → ℚ)) :
    Except String (List (NavState m)) :=
  navRun f sol w (normalizePrices prices)

/-! ### Statistics engine: `Single_Asset` -/

/-- Helper for `cummax`: running maximum continued from `mx`. -/
def cummaxGo (mx : ℚ) : List ℚ → List ℚ
  | [] => []
  | v :: rest => max mx v :: cummaxGo (max mx v) rest

/-- `pandas.Series.cummax` on the values of a NAV series. -/
def cummax : List ℚ → List ℚ
  | [] => []
  | v :: rest => v :: cummaxGo v rest

/-- Helper for `argminFirst`: fold keeping the first entry attaining the
running minimum value. -/
def argminGo (best : ℕ × ℚ) : List (ℕ × ℚ) → ℕ × ℚ
  | [] => best
  | p :: rest => argminGo (if p.2 < best.2 then p else best) rest

/-- `Series.idxmin` paired with `Series.min`: the first entry attaining
the minimum value. -/
def argminFirst : List (ℕ × ℚ) → Option (ℕ × ℚ)
  | [] => none
  | p :: rest => some (argminGo p rest)

/-- Helper for `argmaxFirst`. -/
def argmaxGo (best : ℕ × ℚ) : List (ℕ × ℚ) → ℕ × ℚ
  | [] => best
  | p :: rest => argmaxGo (if best.2 < p.2 then p else best) rest

/-- `Series.idxmax`: the first entry attaining the maximum value. -/
def argmaxFirst : List (ℕ × ℚ) → Option (ℕ × ℚ)
  | [] => none
  | p :: rest => some (argmaxGo p rest)

/-- The drawdown series of `Single_Asset.mdd` (Single_Asset.py line
142): `nav_series.div(nav_series.cummax()).sub(1)`. -/
def drawdownSeries (nav : List (ℕ × ℚ)) : List (ℕ × ℚ) :=
  List.zipWith (fun p c => (p.1, p.2 / c - 1)) nav (cummax (nav.map Prod.snd))

/-- `Single_Asset.mdd` (Single_Asset.py lines 136-148): returns
`(-min(dd), start, formation)` where `formation` is the first date
attaining the drawdown minimum and `start` the first date attaining the
maximum NAV over dates `≤ formation`. -/
def mddStats (nav : List (ℕ × ℚ)) : ℚ × ℕ × ℕ :=
  match argminFirst (drawdownSeries nav) with
  | none => (0, 0, 0)
  | some q =>
      let start :=
        match argmaxFirst (nav.filter (fun p => decide (p.1 ≤ q.1))) with
        | none => 0
        | some r => r.1
      (-q.2, start, q.1)

/-- `nav_series.loc[d]`: first value stored at date `d`. -/
def navAt (nav : List (ℕ × ℚ)) (d : ℕ) : Option ℚ :=
  (nav.find? (fun p => decide (p.1 = d))).map Prod.snd

/-- The recovery-date lookup of `Single_Asset.backtest` (Single_Asset.py
lines 96-101 and 122-127): the first date of the series satisfying
`nav_series >= nav_series.loc[start]` and `index > start`; `none` models
the `尚未恢复` ("not yet recovered") sentinel produced by the `except`
branch when the filtered frame is empty. -/
def recoveryDate (nav : List (ℕ × ℚ)) (start : ℕ) : Option ℕ :=
  match navAt nav start with
  | none => none
  | some v0 =>
      ((nav.filter (fun p => decide (v0 ≤ p.2 ∧ start < p.1))).head?).map Prod.fst

/-- Modelled from the spec: the recovery date as the specification words
it, "first date strictly after `formation_date` at which NAV ≥ NAV at
`start_date`" — to be compared with `recoveryDate`, which the code
computes relative to `start_date` instead. -/
def recoveryDateSpec (nav : List (ℕ × ℚ)) (start formation : ℕ) : Option ℕ :=
  match navAt nav start with
  | none => none
  | some v0 =>
      ((nav.filter (fun p => decide (v0 ≤ p.2 ∧ formation < p.1))).head?).map Prod.fst

/-- One row of `Single_Asset.backtest_series` output, restricted to the
fields the claims are about (return, drawdown and recovery statistics;
volatility and the ratio columns are not modelled). -/
structure PerfRecord where
  hpr : ℚ
  mddVal : ℚ
  mddStart : ℕ
  mddFormation : ℕ
  recovery : Option ℕ
deriving DecidableEq

/-- `holding_period_return` of `Single_Asset.backtest_series`
(Single_Asset.py line 56): `nav.iloc[-1] / nav.iloc[0] - 1`. -/
def holding_period_return (nav : List (ℕ × ℚ)) : ℚ :=
  ((nav.getLast?).getD (0, 1)).2 / ((nav.head?).getD (0, 1)).2 - 1

/-- The annualized-return computation of `Single_Asset.backtest_series`
(Single_Asset.py lines 57-58): `(HPR + 1) ** (ann / (len(ret_series) - 1))
- 1` when `annualize` is true, plain `HPR` otherwise.  `ret_series =
nav.pct_change()` has the same length as the NAV slice.  The float power
with a non-integer exponent is modelled by real `rpow`, hence this single
definition is noncomputable. -/
noncomputable def annualized_return (ann : ℕ) (annualize : Bool)
    (nav : List (ℕ × ℚ)) : ℝ :=
  if annualize then
    ((holding_period_return nav : ℝ) + 1) ^
      ((ann : ℝ) / ((nav.length : ℝ) - 1)) - 1
  else (holding_period_return nav : ℝ)

/-- `Single_Asset.backtest_series` (fields covered by the claims); the
recovery column starts as the `np.nan` placeholder (`none`), which
`Single_Asset.backtest` overwrites. -/
def backtest_series_stats (nav : List (ℕ × ℚ)) : PerfRecord :=
  let q := mddStats nav
  { hpr := holding_period_return nav
    mddVal := q.1
    mddStart := q.2.1
    mddFormation := q.2.2
    recovery := none }

/-- A slice's performance record as `Single_Asset.backtest` builds it:
`backtest_series` on the slice, then the recovery date looked up over the
full NAV series using the slice's drawdown start date. -/
def mkRecord (full slice : List (ℕ × ℚ)) : PerfRecord :=
  let r := backtest_series_stats slice
  { r with recovery := recoveryDate full r.mddStart }

/-- `nav_series.loc[nav_series.index.year == y]`. -/
def yearSlice (yr : ℕ → ℕ) (nav : List (ℕ × ℚ)) (y : ℕ) : List (ℕ × ℚ) :=
  nav.filter (fun p => decide (yr p.1 = y))

/-- `years = list(set(nav_series.index.year)); years.sort()`
(Single_Asset.py lines 107-108). -/
def yearsOf (yr : ℕ → ℕ) (nav : List (ℕ × ℚ)) : List ℕ :=
  ((nav.map (fun p => yr p.1)).dedup).insertionSort (· ≤ ·)

/-- The by-year loop of `Single_Asset.backtest` (Single_Asset.py lines
109-129), producing for each reported year the NAV slice its statistics
are computed on: the first year is dropped when it has a single
observation, every later year gets the prior year's last observation
prepended.  `prev` carries the previous element of the year list
(`years[idx - 1]`), `none` meaning `idx == 0`. -/
def byYearGo (yr : ℕ → ℕ) (nav : List (ℕ × ℚ)) :
    Option ℕ → List ℕ → List (ℕ × List (ℕ × ℚ))
  | _, [] => []
  | none, y :: rest =>
      (if (yearSlice yr nav y).length = 1 then []
       else [(y, yearSlice yr nav y)]) ++ byYearGo yr nav (some y) rest
  | some py, y :: rest =>
      (y, (yearSlice yr nav py).getLastD (0, 0) :: yearSlice yr nav y) ::
        byYearGo yr nav (some y) rest

/-- The year-indexed slices reported by `Single_Asset.backtest`. -/
def byYearAnchoredSlices (yr : ℕ → ℕ) (nav : List (ℕ × ℚ)) :
    List (ℕ × List (ℕ × ℚ)) :=
  byYearGo yr nav none (yearsOf yr nav)

/-- The by-year performance records of `Single_Asset.backtest`. -/
def byYearRecords (yr : ℕ → ℕ) (nav : List (ℕ × ℚ)) :
    List (ℕ × PerfRecord) :=
  (byYearAnchoredSlices yr nav).map (fun q => (q.1, mkRecord nav q.2))

/-- `Single_Asset.backtest`: the whole-period record (`整体表现`) paired
with the by-year records. -/
def Single_Asset_backtest (yr : ℕ → ℕ) (nav : List (ℕ × ℚ)) :
    PerfRecord × List (ℕ × PerfRecord) :=
  (mkRecord nav nav, byYearRecords yr nav)

/-- The annualized-return column of the by-year rows of
`Single_Asset.backtest`: the by-year call site (Single_Asset.py line 121)
always passes `annualize=False`. -/
noncomputable def byYearAnnualizedReturns (ann : ℕ) (yr : ℕ → ℕ)
    (nav : List (ℕ × ℚ)) : List (ℕ × ℝ) :=
  (byYearAnchoredSlices yr nav).map
    (fun q => (q.1, annualized_return ann false q.2))

/-! ### Calendar/weight alignment: `Portfolio.slice` and column setup -/

/-- Ordering of schedule rows by date, used for `sort_index`. -/
def keyle {α : Type} (a b : ℕ × α) : Prop :=
  a.1 ≤ b.1

instance {α : Type} : DecidableRel (keyle (α := α)) :=
  fun a b => Nat.decLe a.1 b.1

instance {α : Type} : IsTotal (ℕ × α) keyle :=
  ⟨fun a b => Nat.le_total a.1 b.1⟩

instance {α : Type} : IsTrans (ℕ × α) keyle :=
  ⟨fun _ _ _ => Nat.le_trans⟩

/-- `pd.Series(data.index, index=data.index).loc[:w].iloc[-1]`
(Portfolio.py line 107): the nearest price date `≤ w` of a sorted price
index. -/
def precDate (D : List ℕ) (w : ℕ) : Option ℕ :=
  (D.filter (fun d => decide (d ≤ w))).getLast?

/-- Step 1 of `Portfolio.slice` for the weight frame (Portfolio.py line
91): `weight.loc[data.index[0] : data.index[-1]]`. -/
def restrictSpan {α : Type} (d0 dl : ℕ) (W : List (ℕ × α)) : List (ℕ × α) :=
  W.filter (fun p => decide (d0 ≤ p.1 ∧ p.1 ≤ dl))

/-- `DataFrame.loc[k] = r` assignment on a date-keyed frame: replace the
row if the key exists, else append it. -/
def setLoc {α : Type} (acc : List (ℕ × α)) (k : ℕ) (r : α) : List (ℕ × α) :=
  if acc.any (fun p => p.1 == k) then
    acc.map (fun p => if p.1 == k then (k, r) else p)
  else acc ++ [(k, r)]

/-- One iteration of the date-adjustment loop of `Portfolio.slice`
(Portfolio.py lines 101-118) on accumulator `acc`: keep an exact-match
date, else move the row to the preceding price date unless the (restricted)
schedule `K` already has an explicit row there. -/
def alignStep {α : Type} (D K : List ℕ) (acc : List (ℕ × α)) (p : ℕ × α) :
    List (ℕ × α) :=
  if p.1 ∈ D then setLoc acc p.1 p.2
  else
    match precDate D p.1 with
    | none => acc
      -- a weight date before every price date is impossible after the
      -- span restriction of step 1
    | some d => if d ∈ K then acc else setLoc acc d p.2

/-- The accumulated `date_adjusted_weight` frame of `Portfolio.slice`. -/
def alignWeights {α : Type} (D : List ℕ) (W' : List (ℕ × α)) : List (ℕ × α) :=
  W'.foldl (alignStep D (W'.map Prod.fst)) []

/-- The per-row target of `alignStep`: `some (dest, row)` when the row
survives (at an exact or moved date), `none` when it is discarded. -/
def alignTarget {α : Type} (D K : List ℕ) (p : ℕ × α) : Option (ℕ × α) :=
  if p.1 ∈ D then some p
  else
    match precDate D p.1 with
    | none => none
    | some d => if d ∈ K then none else some (d, p.2)

/-- `Portfolio.slice` (Portfolio.py lines 76-127) after the optional
user start/end pre-slice: restrict the weight frame to the price span,
date-adjust it, sort it, and re-slice the price index to start at the
aligned schedule's first date.  The `IndexError`s model the uncaught
pandas exceptions on an empty price index (`data.index[0]`) or an empty
aligned schedule (`weight.index[0]`). -/
def portfolioSlice {α : Type} (D : List ℕ) (W : List (ℕ × α)) :
    Except String (List ℕ × List (ℕ × α)) :=
  match D.head?, D.getLast? with
  | some d0, some dl =>
      let adj := (alignWeights D (restrictSpan d0 dl W)).insertionSort keyle
      match adj.head? with
      | none => .error "IndexError: empty aligned weight schedule"
      | some q => .ok (D.filter (fun d => decide (q.1 ≤ d)), adj)
  | _, _ => .error "IndexError: empty price index"

/-- The column handling of `Portfolio.load_sheets_from_file`
(Portfolio.py line 49): `data = data[weight.columns]` keeps exactly the
weight columns, raising `KeyError` if one is absent from the price frame;
price columns without weight information are silently dropped.  Column
labels are modelled as naturals. -/
def selectColumns (dataCols weightCols : List ℕ) : Except String (List ℕ) :=
  if weightCols.all (fun c => decide (c ∈ dataCols)) then .ok weightCols
  else .error "KeyError: weight column missing from the price frame"

/-! ### Lemmas about the NAV state machine -/

theorem navRunTAux_getD_succ {m : ℕ} (f : Fin m → ℚ) (sol : SolverT m)
    (w : ℕ → Option (Fin m → ℚ)) :
    ∀ (rest : List (Fin m → ℚ)) (prev : NavState m) (pPrev : Fin m → ℚ)
      (idx i : ℕ), i + 1 < rest.length →
      (navRunTAux f sol w prev pPrev idx rest).getD (i + 1) (dfltState m) =
        navStepT f sol
          ((navRunTAux f sol w prev pPrev idx rest).getD i (dfltState m))
          (rest.getD i (fun _ => 0)) (rest.getD (i + 1) (fun _ => 0))
          (w (idx + i + 1)) := by
  intro rest
  induction rest with
  | nil => intro prev pPrev idx i hi; simp at hi
  | cons p rest' ih =>
      intro prev pPrev idx i hi
      cases i with
      | zero =>
          cases rest' with
          | nil => simp at hi
          | cons q rest'' => simp [navRunTAux, List.getD_cons_succ]
      | succ j =>
          have hj : j + 1 < rest'.length := by
            simp only [List.length_cons] at hi; omega
          simp only [navRunTAux, List.getD_cons_succ]
          have hidx : idx + (j + 1) + 1 = idx + 1 + j + 1 := by omega
          rw [hidx]
          exact ih (navStepT f sol prev pPrev p (w idx)) p (idx + 1) j hj

theorem navRunT_step {m : ℕ} (f : Fin m → ℚ) (sol : SolverT m)
    (w : ℕ → Option (Fin m → ℚ)) (ps : List (Fin m → ℚ)) (i : ℕ)
    (hw0 : (w 0).isSome) (hi : i + 1 < ps.length) :
    (navRunT f sol w ps).getD (i + 1) (dfltState m) =
      navStepT f sol ((navRunT f sol w ps).getD i (dfltState m))
        (ps.getD i (fun _ => 0)) (ps.getD (i + 1) (fun _ => 0)) (w (i + 1)) := by
  cases ps with
  | nil => simp at hi
  | cons p0 rest =>
      cases hw : w 0 with
      | none => rw [hw] at hw0; simp at hw0
      | some w0 =>
          cases i with
          | zero =>
              cases rest with
              | nil => simp at hi
              | cons q rest'' => simp [navRunT, hw, navRunTAux]
          | succ j =>
              have hj : j + 1 < rest.length := by
                simp only [List.length_cons] at hi; omega
              simp only [navRunT, hw, List.getD_cons_succ]
              have hidx : j + 1 + 1 = 1 + j + 1 := by omega
              rw [hidx]
              exact navRunTAux_getD_succ f sol w rest (initState f p0 w0) p0 1 j hj

theorem navStep_total {m : ℕ} (f : Fin m → ℚ) (sol : SolverT m)
    (prev : NavState m) (pPrev pCur : Fin m → ℚ) (wRow : Option (Fin m → ℚ)) :
    navStep f (fun a b c d => some (sol a b c d)) prev pPrev pCur wRow =
      .ok (navStepT f sol prev pPrev pCur wRow) := by
  cases wRow <;> rfl

theorem navRunAux_total {m : ℕ} (f : Fin m → ℚ) (sol : SolverT m)
    (w : ℕ → Option (Fin m → ℚ)) :
    ∀ (rest : List (Fin m → ℚ)) (prev : NavState m) (pPrev : Fin m → ℚ)
      (idx : ℕ),
      navRunAux f (fun a b c d => some (sol a b c d)) w prev pPrev idx rest =
        .ok (navRunTAux f sol w prev pPrev idx rest) := by
  intro rest
  induction rest with
  | nil => intro prev pPrev idx; rfl
  | cons p rest' ih =>
      intro prev pPrev idx
      simp only [navRunAux, navRunTAux, navStep_total, ih, Except.map]

/-- A run whose every solver call converges never raises: it returns
exactly the states of the total-solver machine. -/
theorem navRun_total {m : ℕ} (f : Fin m → ℚ) (sol : SolverT m)
    (w : ℕ → Option (Fin m → ℚ)) (ps : List (Fin m → ℚ))
    (hw0 : (w 0).isSome) :
    navRun f (fun a b c d => some (sol a b c d)) w ps =
      .ok (navRunT f sol w ps) := by
  cases ps with
  | nil => rfl
  | cons p0 rest =>
      cases hw : w 0 with
      | none => rw [hw] at hw0; simp at hw0
      | some w0 => simp [navRun, navRunT, hw, navRunAux_total, Except.map]

/-- C1: on every rebalancing date `t` (a schedule entry at a date other
than the first), the engine computes `NAV_before` by carry, obtains `x`
as a root of `fee(x) - NAV_before + x = 0` with
`fee(x) = Σ |shares_prev - (w/p)·x| · feerate · p`, and sets
`fee_t = NAV_before - x`, `NAV_t = x`, `shares_t = w·x/p`,
`actual_weight_t = w`, and `turnover_t = |w - actual_weight_prev|`
against the previous row's realized weight. -/
theorem c1_rebalance_step {m : ℕ} (f : Fin m → ℚ) (sol : SolverT m)
    (w : ℕ → Option (Fin m → ℚ)) (ps : List (Fin m → ℚ)) (i : ℕ)
    (wa : Fin m → ℚ) (hw0 : (w 0).isSome) (h0 : 0 < i) (hi : i < ps.length)
    (hw : w i = some wa)
    (hroot : ∀ sb wa' pa navb,
      nav_equation (sol sb wa' pa navb) sb wa' pa f navb = 0) :
    let S := navRunT f sol w ps
    let prev := S.getD (i - 1) (dfltState m)
    let cur := S.getD i (dfltState m)
    let pPrev := ps.getD (i - 1) (fun _ => 0)
    let pCur := ps.getD i (fun _ => 0)
    let navb := prev.nav + ∑ j, prev.shares j * (pCur j - pPrev j)
    (nav_equation cur.nav prev.shares wa pCur f navb =
      (∑ j, |prev.shares j - wa j / pCur j * cur.nav| * f j * pCur j)
        - navb + cur.nav) ∧
    nav_equation cur.nav prev.shares wa pCur f navb = 0 ∧
    cur.fee = navb - cur.nav ∧
    (∀ j, cur.shares j = wa j * cur.nav / pCur j) ∧
    cur.actualWeight = wa ∧
    ∀ j, cur.turnover j = |wa j - prev.actualWeight j| := by
  obtain ⟨k, rfl⟩ : ∃ k, i = k + 1 := ⟨i - 1, by omega⟩
  have hstep := navRunT_step f sol w ps k hw0 hi
  simp only [Nat.add_sub_cancel]
  rw [hstep, hw]
  exact ⟨by simp [nav_equation, calculate_fee], hroot _ _ _ _, rfl,
    fun j => rfl, rfl, fun j => rfl⟩

theorem c1_rebalance_step_witness :
    ((navRunT (fun _ => (0 : ℚ)) (fun _ _ _ navb => navb)
        (fun n => if n ≤ 1 then some (fun _ => (1 : ℚ)) else none)
        [fun _ => 1, fun _ => 2]).getD 1 (dfltState 1)).actualWeight =
      (fun _ => (1 : ℚ)) :=
  (c1_rebalance_step (fun _ => (0 : ℚ)) (fun _ _ _ navb => navb)
    (fun n => if n ≤ 1 then some (fun _ => (1 : ℚ)) else none)
    [fun _ => 1, fun _ => 2] 1 (fun _ => (1 : ℚ)) rfl (by decide) (by decide)
    rfl (by
      intro sb wa' pa navb
      simp [nav_equation, calculate_fee])).2.2.2.2.1

/-- C4: on every non-rebalancing date `t`, shares are carried over, the
fee and turnover are zero, NAV is marked to market by
`NAV_prev + Σ shares_prev·(p_t − p_prev)`, and the realized weight is
`shares_t · p_t / NAV_t`. -/
theorem c4_carry_step {m : ℕ} (f : Fin m → ℚ) (sol : SolverT m)
    (w : ℕ → Option (Fin m → ℚ)) (ps : List (Fin m → ℚ)) (i : ℕ)
    (hw0 : (w 0).isSome) (h0 : 0 < i) (hi : i < ps.length)
    (hw : w i = none) :
    let S := navRunT f sol w ps
    let prev := S.getD (i - 1) (dfltState m)
    let cur := S.getD i (dfltState m)
    let pPrev := ps.getD (i - 1) (fun _ => 0)
    let pCur := ps.getD i (fun _ => 0)
    cur.shares = prev.shares ∧
    cur.fee = 0 ∧
    cur.turnover = (fun _ => 0) ∧
    cur.nav = prev.nav + ∑ j, prev.shares j * (pCur j - pPrev j) ∧
    ∀ j, cur.actualWeight j = cur.shares j * pCur j / cur.nav := by
  obtain ⟨k, rfl⟩ : ∃ k, i = k + 1 := ⟨i - 1, by omega⟩
  have hstep := navRunT_step f sol w ps k hw0 hi
  simp only [Nat.add_sub_cancel]
  rw [hstep, hw]
  exact ⟨rfl, rfl, rfl, rfl, fun j => rfl⟩

theorem c4_carry_step_witness :
    ((navRunT (fun _ => (0 : ℚ)) (fun _ _ _ navb => navb)
        (fun n => if n = 0 then some (fun _ => (1 : ℚ)) else none)
        [fun _ => 1, fun _ => 2]).getD 1 (dfltState 1)).fee = 0 :=
  (c4_carry_step (fun _ => (0 : ℚ)) (fun _ _ _ navb => navb)
    (fun n => if n = 0 then some (fun _ => (1 : ℚ)) else none)
    [fun _ => 1, fun _ => 2] 1 rfl (by decide) (by decide) rfl).2.1

/-- C3 counterexample: at the rebalancing date 1 the unique root of the
code's own `nav_equation` is `-2` (fee rate 3, full move to a zero-weight
target), the solver returns it, and the run succeeds with `NAV_1 = -2`:
a negative solver result is accepted silently rather than surfaced as an
error. -/
theorem c3_counterexample :
    navRun (fun _ => (3 : ℚ)) (fun _ _ _ _ => some (-2))
        (fun n => if n = 0 then some (fun _ => (1 : ℚ))
          else if n = 1 then some (fun _ => (0 : ℚ)) else none)
        ([fun _ => 1, fun _ => 1] : List (Fin 1 → ℚ)) =
      .ok (navRunT (fun _ => (3 : ℚ)) (fun _ _ _ _ => (-2))
        (fun n => if n = 0 then some (fun _ => (1 : ℚ))
          else if n = 1 then some (fun _ => (0 : ℚ)) else none)
        ([fun _ => 1, fun _ => 1] : List (Fin 1 → ℚ))) ∧
    ((navRunT (fun _ => (3 : ℚ)) (fun _ _ _ _ => (-2))
        (fun n => if n = 0 then some (fun _ => (1 : ℚ))
          else if n = 1 then some (fun _ => (0 : ℚ)) else none)
        ([fun _ => 1, fun _ => 1] : List (Fin 1 → ℚ))).getD 1
          (dfltState 1)).nav = -2 ∧
    nav_equation (-2) ((fun _ => 1) : Fin 1 → ℚ) (fun _ => 0) (fun _ => 1)
        (fun _ => 3) 1 = 0 := by
  refine ⟨navRun_total _ _ _ _ rfl, ?_, ?_⟩
  · norm_num [navRunT, navRunTAux, navStepT, initState, calculate_fee]
  · norm_num [nav_equation, calculate_fee]

/-- C3 amended: the solver's result is stored as `NAV_t` verbatim (never
clamped, never replaced — in particular a negative result flows into the
NAV series unchecked), while a non-converging solver call at a
rebalancing date surfaces as the propagated `RuntimeError`. -/
theorem c3_amended {m : ℕ} (f : Fin m → ℚ) (sol : SolverT m)
    (w : ℕ → Option (Fin m → ℚ)) (ps : List (Fin m → ℚ)) (i : ℕ)
    (wa : Fin m → ℚ) (hw0 : (w 0).isSome) (h0 : 0 < i) (hi : i < ps.length)
    (hw : w i = some wa) :
    (((navRunT f sol w ps).getD i (dfltState m)).nav =
      sol ((navRunT f sol w ps).getD (i - 1) (dfltState m)).shares wa
        (ps.getD i (fun _ => 0))
        (((navRunT f sol w ps).getD (i - 1) (dfltState m)).nav +
          ∑ j, ((navRunT f sol w ps).getD (i - 1) (dfltState m)).shares j *
            (ps.getD i (fun _ => 0) j - ps.getD (i - 1) (fun _ => 0) j))) ∧
    ∀ (solE : SolverE m) (prev : NavState m) (pPrev pCur : Fin m → ℚ),
      solE prev.shares wa pCur
          (prev.nav + ∑ j, prev.shares j * (pCur j - pPrev j)) = none →
      navStep f solE prev pPrev pCur (some wa) =
        .error "RuntimeError: failed to converge" := by
  constructor
  · obtain ⟨k, rfl⟩ : ∃ k, i = k + 1 := ⟨i - 1, by omega⟩
    have hstep := navRunT_step f sol w ps k hw0 hi
    simp only [Nat.add_sub_cancel]
    rw [hstep, hw]
    rfl
  · intro solE prev pPrev pCur hnone
    simp only [navStep, hnone]

theorem c3_amended_witness :
    ((navRunT (fun _ => (3 : ℚ)) (fun _ _ _ _ => (-2))
        (fun n => if n = 0 then some (fun _ => (1 : ℚ))
          else if n = 1 then some (fun _ => (0 : ℚ)) else none)
        ([fun _ => 1, fun _ => 1] : List (Fin 1 → ℚ))).getD 1
          (dfltState 1)).nav = -2 ∧
    navStep (fun _ => (3 : ℚ)) (fun _ _ _ _ => none) (dfltState 1)
        (fun _ => 1) (fun _ => 1) (some (fun _ => (0 : ℚ))) =
      .error "RuntimeError: failed to converge" := by
  have h := c3_amended ((fun _ => 3) : Fin 1 → ℚ) (fun _ _ _ _ => (-2))
    (fun n => if n = 0 then some (fun _ => (1 : ℚ))
      else if n = 1 then some (fun _ => (0 : ℚ)) else none)
    [fun _ => 1, fun _ => 1] 1 (fun _ => (0 : ℚ)) rfl (by decide) (by decide) rfl
  refine ⟨?_, h.2 (fun _ _ _ _ => none) (dfltState 1) (fun _ => 1) (fun _ => 1) rfl⟩
  rw [h.1]

/-! ### Lemmas about filtered series and recovery dates -/

theorem headFilterMem {α : Type} (p : α → Bool) (l : List α) (a : α)
    (h : (l.filter p).head? = some a) : a ∈ l ∧ p a = true := by
  have ha : a ∈ l.filter p := List.mem_of_mem_head? (by simp [h])
  exact ⟨(List.mem_filter.mp ha).1, (List.mem_filter.mp ha).2⟩

theorem headFilterFirst :
    ∀ (l : List (ℕ × ℚ)) (p : ℕ × ℚ → Bool) (a : ℕ × ℚ),
      l.Pairwise (fun x y => x.1 < y.1) → (l.filter p).head? = some a →
      ∀ b ∈ l, b.1 < a.1 → p b = false := by
  intro l
  induction l with
  | nil => intro p a _ h; simp at h
  | cons c t ih =>
      intro p a hs h b hb hlt
      cases hpc : p c with
      | true =>
          rw [List.filter_cons_of_pos hpc] at h
          simp only [List.head?_cons, Option.some.injEq] at h
          subst h
          rcases List.mem_cons.mp hb with rfl | hbt
          · exact absurd hlt (lt_irrefl _)
          · exact absurd hlt
              (not_lt_of_gt ((List.pairwise_cons.mp hs).1 b hbt))
      | false =>
          rw [List.filter_cons_of_neg (by simp [hpc])] at h
          rcases List.mem_cons.mp hb with rfl | hbt
          · exact hpc
          · exact ih p a (List.pairwise_cons.mp hs).2 h b hbt hlt

theorem recoveryBranch (nav : List (ℕ × ℚ)) (st : ℕ) (v0 : ℚ)
    (h : navAt nav st = some v0) :
    recoveryDate nav st =
      ((nav.filter (fun p => decide (v0 ≤ p.2 ∧ st < p.1))).head?).map
        Prod.fst := by
  unfold recoveryDate
  rw [h]

/-- C2 counterexample: for the NAV series `[1, 1, 1/2]` the maximum
drawdown forms at date 2 with start date 0, and the code reports recovery
at date 1 — a date that is not strictly after the formation date 2 — while
the claimed rule ("first date strictly after the formation date") yields
the not-yet-recovered sentinel. -/
theorem c2_counterexample :
    mddStats [(0, 1), (1, 1), (2, 1/2)] = (1/2, 0, 2) ∧
    (Single_Asset_backtest (fun _ => 0) [(0, 1), (1, 1), (2, 1/2)]).1.recovery =
      some 1 ∧
    recoveryDateSpec [(0, 1), (1, 1), (2, 1/2)] 0 2 = none := by
  refine ⟨?_, ?_, ?_⟩
  · norm_num [mddStats, drawdownSeries, cummax, cummaxGo, argminFirst, argminGo,
      argmaxFirst, argmaxGo]
  · norm_num [Single_Asset_backtest, mkRecord, backtest_series_stats, mddStats,
      drawdownSeries, cummax, cummaxGo, argminFirst, argminGo, argmaxFirst,
      argmaxGo, recoveryDate, navAt, List.find?]
  · norm_num [recoveryDateSpec, navAt, List.find?]

/-- C2 amended: for the whole-period record, the reported recovery date
is the first date strictly after the drawdown START date at which
NAV ≥ NAV at the start date, and the sentinel is reported exactly when no
such date exists; whenever a recovery date is reported, no earlier date
strictly after the start date satisfies the condition. -/
theorem c2_recovery_after_start (yr : ℕ → ℕ) (nav : List (ℕ × ℚ))
    (hs : nav.Pairwise (fun x y => x.1 < y.1)) :
    ((Single_Asset_backtest yr nav).1.recovery =
      recoveryDate nav (Single_Asset_backtest yr nav).1.mddStart) ∧
    ∀ v0, navAt nav (Single_Asset_backtest yr nav).1.mddStart = some v0 →
      (∀ d, (Single_Asset_backtest yr nav).1.recovery = some d →
        (Single_Asset_backtest yr nav).1.mddStart < d ∧
        (∃ v, (d, v) ∈ nav ∧ v0 ≤ v) ∧
        ∀ q ∈ nav, (Single_Asset_backtest yr nav).1.mddStart < q.1 →
          q.1 < d → q.2 < v0) ∧
      ((Single_Asset_backtest yr nav).1.recovery = none →
        ∀ q ∈ nav, (Single_Asset_backtest yr nav).1.mddStart < q.1 →
          q.2 < v0) := by
  refine ⟨rfl, ?_⟩
  intro v0 hv0
  have hrec : (Single_Asset_backtest yr nav).1.recovery =
      ((nav.filter (fun p => decide (v0 ≤ p.2 ∧
        (Single_Asset_backtest yr nav).1.mddStart < p.1))).head?).map Prod.fst :=
    recoveryBranch nav _ v0 hv0
  constructor
  · intro d hd
    rw [hrec] at hd
    obtain ⟨q, hq, hfst⟩ := Option.map_eq_some'.mp hd
    obtain ⟨hqmem, hqp⟩ := headFilterMem _ nav q hq
    rw [decide_eq_true_eq] at hqp
    refine ⟨hfst ▸ hqp.2, ⟨q.2, by rw [← hfst]; exact hqmem, hqp.1⟩, ?_⟩
    intro b hb hb1 hb2
    have hb2' : b.1 < q.1 := by rw [hfst]; exact hb2
    have hpf := headFilterFirst nav _ q hs hq b hb hb2'
    rw [decide_eq_false_iff_not] at hpf
    by_contra hcon
    push_neg at hcon
    exact hpf ⟨hcon, hb1⟩
  · intro hnone q hq hlt
    rw [hrec] at hnone
    rw [Option.map_eq_none'] at hnone
    have hfil := List.head?_eq_none_iff.mp hnone
    have hq' := List.filter_eq_nil_iff.mp hfil q hq
    rw [decide_eq_true_eq] at hq'
    by_contra hcon
    push_neg at hcon
    exact hq' ⟨hcon, hlt⟩

theorem c2_recovery_after_start_witness :
    (Single_Asset_backtest (fun _ => 0) [(0, 2), (1, 1), (2, 3)]).1.recovery =
      recoveryDate [(0, 2), (1, 1), (2, 3)]
        (Single_Asset_backtest (fun _ => 0) [(0, 2), (1, 1), (2, 3)]).1.mddStart :=
  (c2_recovery_after_start (fun _ => 0) [(0, 2), (1, 1), (2, 3)] (by decide)).1

/-- C10: every by-year record is built from its (anchored) year slice,
its recovery date is computed by the same whole-period rule over the
ENTIRE NAV series (first date of the full series strictly after that
slice's drawdown start date with NAV ≥ NAV at the start date), and the
sentinel appears exactly when no date of the whole series qualifies —
hence a year's recovery date may fall in a later calendar year. -/
theorem c10_by_year_recovery (yr : ℕ → ℕ) (nav : List (ℕ × ℚ)) (y : ℕ)
    (r : PerfRecord) (hmem : (y, r) ∈ byYearRecords yr nav) :
    (∃ s, (y, s) ∈ byYearAnchoredSlices yr nav ∧ r = mkRecord nav s) ∧
    r.recovery = recoveryDate nav r.mddStart ∧
    ∀ v0, navAt nav r.mddStart = some v0 →
      (r.recovery = none ↔ ∀ q ∈ nav, r.mddStart < q.1 → ¬ v0 ≤ q.2) := by
  obtain ⟨⟨y', s⟩, hsl, heq⟩ := List.mem_map.mp hmem
  obtain ⟨rfl, rfl⟩ : y' = y ∧ mkRecord nav s = r := by
    simpa [Prod.ext_iff] using heq
  refine ⟨⟨s, hsl, rfl⟩, rfl, ?_⟩
  intro v0 hv0
  have hlink : (mkRecord nav s).recovery =
      recoveryDate nav (mkRecord nav s).mddStart := rfl
  rw [hlink, recoveryBranch nav _ v0 hv0, Option.map_eq_none',
    List.head?_eq_none_iff, List.filter_eq_nil_iff]
  constructor
  · intro h q hq hlt hle
    exact h q hq (by simp [hle, hlt])
  · intro h q hq
    simp only [decide_eq_true_eq, not_and]
    intro hle hlt
    exact h q hq hlt hle

theorem c10_by_year_recovery_witness :
    (⟨-(1/2), 1/2, 0, 1, some 12⟩ : PerfRecord).recovery =
      recoveryDate [(0, 10), (1, 5), (12, 11)]
        (⟨-(1/2), 1/2, 0, 1, some 12⟩ : PerfRecord).mddStart :=
  (c10_by_year_recovery (fun d => d / 10) [(0, 10), (1, 5), (12, 11)] 0
    ⟨-(1/2), 1/2, 0, 1, some 12⟩
    (by norm_num [byYearRecords, byYearAnchoredSlices, byYearGo, yearsOf,
      yearSlice, mkRecord, backtest_series_stats, holding_period_return,
      mddStats, drawdownSeries, cummax, cummaxGo, argminFirst, argminGo,
      argmaxFirst, argmaxGo, recoveryDate, navAt, List.find?,
      List.insertionSort, List.orderedInsert])).2.1

/-- C6: with `annualize = true` the reported annualized return is
`(1+HPR)^(ann/(n-1)) − 1` for `n` the number of NAV observations of the
slice; with `annualize = false` — the flag used for every by-year slice —
it is the raw holding-period return of that slice. -/
theorem c6_annualized_return (ann : ℕ) (yr : ℕ → ℕ) (nav : List (ℕ × ℚ)) :
    annualized_return ann true nav =
      ((holding_period_return nav : ℝ) + 1) ^
        ((ann : ℝ) / ((nav.length : ℝ) - 1)) - 1 ∧
    annualized_return ann false nav = (holding_period_return nav : ℝ) ∧
    byYearAnnualizedReturns ann yr nav =
      (byYearAnchoredSlices yr nav).map
        (fun q => (q.1, (holding_period_return q.2 : ℝ))) := by
  refine ⟨rfl, rfl, ?_⟩
  simp [byYearAnnualizedReturns, annualized_return]

/-! ### Lemmas about the by-year partition -/

theorem byYearGo_tail_subset (yr : ℕ → ℕ) (nav : List (ℕ × ℚ))
    (prev : Option ℕ) (y : ℕ) (t : List ℕ) (x : ℕ × List (ℕ × ℚ))
    (hx : x ∈ byYearGo yr nav (some y) t) :
    x ∈ byYearGo yr nav prev (y :: t) := by
  cases prev with
  | none =>
      simp only [byYearGo]
      exact List.mem_append_right _ hx
  | some py =>
      simp only [byYearGo]
      exact List.mem_cons_of_mem _ hx

theorem byYearGo_head_mem (yr : ℕ → ℕ) (nav : List (ℕ × ℚ)) (py y : ℕ)
    (t : List ℕ) :
    (y, (yearSlice yr nav py).getLastD (0, 0) :: yearSlice yr nav y) ∈
      byYearGo yr nav (some py) (y :: t) := by
  simp [byYearGo]

theorem byYearGo_succ_mem (yr : ℕ → ℕ) (nav : List (ℕ × ℚ)) :
    ∀ (ys : List ℕ) (prev : Option ℕ) (i : ℕ), i + 1 < ys.length →
      (ys.getD (i + 1) 0,
        (yearSlice yr nav (ys.getD i 0)).getLastD (0, 0) ::
          yearSlice yr nav (ys.getD (i + 1) 0)) ∈ byYearGo yr nav prev ys := by
  intro ys
  induction ys with
  | nil => intro prev i hi; simp at hi
  | cons y t ih =>
      intro prev i hi
      cases i with
      | zero =>
          cases t with
          | nil => simp at hi
          | cons y1 t' =>
              simp only [List.getD_cons_succ, List.getD_cons_zero]
              exact byYearGo_tail_subset yr nav prev y (y1 :: t') _
                (byYearGo_head_mem yr nav y y1 t')
      | succ j =>
          have hj : j + 1 < t.length := by
            simp only [List.length_cons] at hi; omega
          simp only [List.getD_cons_succ]
          exact byYearGo_tail_subset yr nav prev y t _ (ih (some y) j hj)

theorem byYearGo_fst_mem (yr : ℕ → ℕ) (nav : List (ℕ × ℚ)) :
    ∀ (ys : List ℕ) (prev : Option ℕ) (x : ℕ × List (ℕ × ℚ)),
      x ∈ byYearGo yr nav prev ys → x.1 ∈ ys := by
  intro ys
  induction ys with
  | nil => intro prev x hx; cases prev <;> simp [byYearGo] at hx
  | cons y t ih =>
      intro prev x hx
      cases prev with
      | none =>
          simp only [byYearGo] at hx
          rcases List.mem_append.mp hx with h1 | h2
          · by_cases hc : (yearSlice yr nav y).length = 1
            · simp [hc] at h1
            · simp only [hc, if_false, List.mem_singleton] at h1
              simp [h1]
          · exact List.mem_cons_of_mem _ (ih (some y) x h2)
      | some py =>
          simp only [byYearGo] at hx
          rcases List.mem_cons.mp hx with rfl | h2
          · simp
          · exact List.mem_cons_of_mem _ (ih (some y) x h2)

theorem yearsOf_nodup (yr : ℕ → ℕ) (nav : List (ℕ × ℚ)) :
    (yearsOf yr nav).Nodup :=
  (List.perm_insertionSort _ _).nodup_iff.mpr (List.nodup_dedup _)

theorem yearsOf_eq_nil (yr : ℕ → ℕ) (nav : List (ℕ × ℚ))
    (h : yearsOf yr nav = []) : nav = [] := by
  unfold yearsOf at h
  have hp := List.perm_insertionSort (· ≤ ·) ((nav.map (fun p => yr p.1)).dedup)
  rw [h] at hp
  have h2 : (nav.map (fun p => yr p.1)).dedup = [] := List.Perm.eq_nil hp.symm
  rw [List.dedup_eq_nil] at h2
  exact List.map_eq_nil.mp h2

/-- C7: the NAV series is partitioned by calendar year (each observation
belongs to exactly one year slice); every year after the first is
reported on its year slice with the prior year's last observation
prepended as an anchor; and when the first year holds exactly one
observation no record is produced for it. -/
theorem c7_by_year_report (yr : ℕ → ℕ) (nav : List (ℕ × ℚ)) :
    (∀ q ∈ nav, q ∈ yearSlice yr nav (yr q.1) ∧
      ∀ y, q ∈ yearSlice yr nav y → y = yr q.1) ∧
    (∀ i, i + 1 < (yearsOf yr nav).length →
      ((yearsOf yr nav).getD (i + 1) 0,
        (yearSlice yr nav ((yearsOf yr nav).getD i 0)).getLastD (0, 0) ::
          yearSlice yr nav ((yearsOf yr nav).getD (i + 1) 0)) ∈
        byYearAnchoredSlices yr nav) ∧
    ((yearSlice yr nav ((yearsOf yr nav).getD 0 0)).length = 1 →
      (yearsOf yr nav).getD 0 0 ∉ (byYearAnchoredSlices yr nav).map Prod.fst) := by
  refine ⟨?_, ?_, ?_⟩
  · intro q hq
    refine ⟨List.mem_filter.mpr ⟨hq, by simp⟩, ?_⟩
    intro y hy
    have := (List.mem_filter.mp hy).2
    rw [decide_eq_true_eq] at this
    exact this.symm
  · intro i hi
    exact byYearGo_succ_mem yr nav (yearsOf yr nav) none i hi
  · intro hlen hmem
    cases hys : yearsOf yr nav with
    | nil =>
        have hnav : nav = [] := yearsOf_eq_nil yr nav hys
        rw [hys] at hlen
        simp [hnav, yearSlice] at hlen
    | cons y0 t =>
        rw [hys] at hlen hmem
        simp only [List.getD_cons_zero] at hlen hmem
        have hnd : (y0 :: t).Nodup := by
          rw [← hys]; exact yearsOf_nodup yr nav
        have hslices : byYearAnchoredSlices yr nav = byYearGo yr nav none (y0 :: t) := by
          unfold byYearAnchoredSlices
          rw [hys]
        rw [hslices] at hmem
        simp only [byYearGo, hlen, if_pos, List.nil_append] at hmem
        obtain ⟨x, hxm, hxf⟩ := List.mem_map.mp hmem
        have : x.1 ∈ t := byYearGo_fst_mem yr nav t (some y0) x hxm
        rw [hxf] at this
        exact (List.nodup_cons.mp hnd).1 this

theorem c7_by_year_report_witness :
    ((0, (10 : ℚ)) ∈ yearSlice (fun d => d / 10) [(0, 10), (1, 5), (12, 11)]
      ((0 : ℕ) / 10)) ∧
    (((yearsOf (fun d => d / 10) [(0, 10), (1, 5), (12, 11)]).getD 1 0,
      (yearSlice (fun d => d / 10) [(0, 10), (1, 5), (12, 11)]
        ((yearsOf (fun d => d / 10) [(0, 10), (1, 5), (12, 11)]).getD 0 0)).getLastD
          (0, 0) ::
      yearSlice (fun d => d / 10) [(0, 10), (1, 5), (12, 11)]
        ((yearsOf (fun d => d / 10) [(0, 10), (1, 5), (12, 11)]).getD 1 0)) ∈
      byYearAnchoredSlices (fun d => d / 10) [(0, 10), (1, 5), (12, 11)]) ∧
    ((yearsOf (fun d => d / 10) [(0, 10), (12, 11)]).getD 0 0 ∉
      (byYearAnchoredSlices (fun d => d / 10) [(0, 10), (12, 11)]).map
        Prod.fst) := by
  refine ⟨?_, ?_, ?_⟩
  · exact ((c7_by_year_report (fun d => d / 10) [(0, 10), (1, 5), (12, 11)]).1
      (0, 10) (List.mem_cons_self _ _)).1
  · exact (c7_by_year_report (fun d => d / 10) [(0, 10), (1, 5), (12, 11)]).2.1 0
      (by decide)
  · exact (c7_by_year_report (fun d => d / 10) [(0, 10), (12, 11)]).2.2
      (by decide)

/-! ### Lemmas about the calendar/weight alignment -/

theorem getLastMem {α : Type} (l : List α) (a : α)
    (h : l.getLast? = some a) : a ∈ l := by
  obtain ⟨hne, heq⟩ := List.mem_getLast?_eq_getLast
    (show a ∈ l.getLast? by simp [h])
  rw [heq]
  exact List.getLast_mem hne

theorem sorted_head_le (D : List ℕ) (d0 : ℕ) (hD : D.Pairwise (· < ·))
    (h : D.head? = some d0) : ∀ x ∈ D, d0 ≤ x := by
  cases D with
  | nil => intro x hx; simp at hx
  | cons a t =>
      simp only [List.head?_cons, Option.some.injEq] at h
      subst h
      intro x hx
      rcases List.mem_cons.mp hx with rfl | hxt
      · exact le_refl _
      · exact le_of_lt ((List.pairwise_cons.mp hD).1 x hxt)

theorem sorted_le_getLast :
    ∀ (D : List ℕ), D.Pairwise (· < ·) → ∀ dl, D.getLast? = some dl →
      ∀ x ∈ D, x ≤ dl := by
  intro D
  induction D with
  | nil => intro _ dl h; simp at h
  | cons a t ih =>
      intro hD dl h x hx
      cases t with
      | nil =>
          simp only [List.getLast?_singleton, Option.some.injEq] at h
          subst h
          have hxa : x = a := by simpa using hx
          exact le_of_eq hxa
      | cons b t' =>
          rw [List.getLast?_cons_cons] at h
          rcases List.mem_cons.mp hx with rfl | hxt
          · have hdl : dl ∈ b :: t' := getLastMem _ _ h
            exact le_of_lt ((List.pairwise_cons.mp hD).1 dl hdl)
          · exact ih (List.pairwise_cons.mp hD).2 dl h x hxt

theorem precDate_spec (D : List ℕ) (w d : ℕ) (h : precDate D w = some d) :
    d ∈ D ∧ d ≤ w := by
  unfold precDate at h
  have hd := getLastMem _ _ h
  exact ⟨(List.mem_filter.mp hd).1, by simpa using (List.mem_filter.mp hd).2⟩

theorem setLoc_fresh {α : Type} (acc : List (ℕ × α)) (k : ℕ) (r : α)
    (h : k ∉ acc.map Prod.fst) : setLoc acc k r = acc ++ [(k, r)] := by
  unfold setLoc
  rw [if_neg]
  intro hc
  rw [List.any_eq_true] at hc
  obtain ⟨p, hp, hpk⟩ := hc
  rw [beq_iff_eq] at hpk
  exact h (List.mem_map.mpr ⟨p, hp, hpk⟩)

theorem alignStep_eq_target {α : Type} (D K : List ℕ) (acc : List (ℕ × α))
    (p : ℕ × α) :
    alignStep D K acc p =
      match alignTarget D K p with
      | none => acc
      | some q => setLoc acc q.1 q.2 := by
  unfold alignStep alignTarget
  by_cases h1 : p.1 ∈ D
  · simp [h1]
  · simp only [h1, if_false]
    cases hp : precDate D p.1 with
    | none => simp
    | some d => by_cases h2 : d ∈ K <;> simp [h2]

theorem alignTarget_cases {α : Type} (D K : List ℕ) (p q : ℕ × α)
    (h : alignTarget D K p = some q) :
    (p.1 ∈ D ∧ q = p) ∨
      (p.1 ∉ D ∧ ∃ d, precDate D p.1 = some d ∧ d ∉ K ∧ q = (d, p.2)) := by
  unfold alignTarget at h
  by_cases h1 : p.1 ∈ D
  · rw [if_pos h1] at h
    injection h with h
    exact Or.inl ⟨h1, h.symm⟩
  · rw [if_neg h1] at h
    revert h
    cases hp : precDate D p.1 with
    | none => intro h; cases h
    | some d =>
        intro h
        dsimp only at h
        by_cases h2 : d ∈ K
        · rw [if_pos h2] at h; cases h
        · rw [if_neg h2] at h
          injection h with h
          exact Or.inr ⟨h1, d, rfl, h2, h.symm⟩

theorem alignTarget_key_mem {α : Type} (D K : List ℕ) (p q : ℕ × α)
    (h : alignTarget D K p = some q) : q.1 ∈ D := by
  rcases alignTarget_cases D K p q h with ⟨h1, rfl⟩ | ⟨_, d, hd, _, rfl⟩
  · exact h1
  · exact (precDate_spec D p.1 d hd).1

theorem foldl_alignStep {α : Type} (D K : List ℕ) :
    ∀ (l : List (ℕ × α)) (acc : List (ℕ × α)),
      (∀ p ∈ l, ∀ q, alignTarget D K p = some q → q.1 ∉ acc.map Prod.fst) →
      l.Pairwise (fun p p' => ∀ q q', alignTarget D K p = some q →
        alignTarget D K p' = some q' → q.1 ≠ q'.1) →
      l.foldl (alignStep D K) acc = acc ++ l.filterMap (alignTarget D K) := by
  intro l
  induction l with
  | nil => intro acc _ _; simp
  | cons p t ih =>
      intro acc hfresh hpw
      rw [List.foldl_cons, alignStep_eq_target]
      cases ht : alignTarget D K p with
      | none =>
          dsimp only
          rw [List.filterMap_cons_none ht]
          exact ih acc
            (fun p' hp' q hq => hfresh p' (List.mem_cons_of_mem _ hp') q hq)
            (List.pairwise_cons.mp hpw).2
      | some q =>
          dsimp only
          rw [setLoc_fresh acc q.1 q.2
            (hfresh p (List.mem_cons_self _ _) q ht)]
          rw [List.filterMap_cons_some ht]
          rw [ih (acc ++ [q]) ?_ (List.pairwise_cons.mp hpw).2]
          · simp
          · intro p' hp' q' hq'
            simp only [List.map_append, List.mem_append, not_or]
            refine ⟨hfresh p' (List.mem_cons_of_mem _ hp') q' hq', ?_⟩
            simp only [List.map_cons, List.map_nil, List.mem_singleton]
            intro heq
            exact ((List.pairwise_cons.mp hpw).1 p' hp' q q' ht hq') heq.symm

theorem alignTarget_pairwise {α : Type} (D : List ℕ) (W' : List (ℕ × α))
    (hW : W'.Pairwise (fun a b => a.1 < b.1))
    (hinj : ∀ p ∈ W', ∀ p' ∈ W', p.1 ∉ D → p'.1 ∉ D →
      precDate D p.1 = precDate D p'.1 → p.1 = p'.1) :
    W'.Pairwise (fun p p' => ∀ q q',
      alignTarget D (W'.map Prod.fst) p = some q →
      alignTarget D (W'.map Prod.fst) p' = some q' → q.1 ≠ q'.1) := by
  refine (List.Pairwise.and_mem.mp hW).imp ?_
  rintro p p' ⟨hp, hp', hlt⟩ q q' hq hq'
  rcases alignTarget_cases D _ p q hq with ⟨hpD, hqp⟩ | ⟨hpD, d, hpd, hdK, hqd⟩ <;>
    rcases alignTarget_cases D _ p' q' hq' with ⟨hp'D, hq'p⟩ | ⟨hp'D, d', hp'd, hd'K, hq'd⟩
  · rw [hqp, hq'p]
    exact fun heq => absurd heq (ne_of_lt hlt)
  · rw [hqp, hq'd]
    intro heq
    have hde : p.1 = d' := heq
    exact hd'K (by rw [← hde]; exact List.mem_map.mpr ⟨p, hp, rfl⟩)
  · rw [hqd, hq'p]
    intro heq
    have hde : d = p'.1 := heq
    exact hdK (by rw [hde]; exact List.mem_map.mpr ⟨p', hp', rfl⟩)
  · rw [hqd, hq'd]
    intro heq
    have hde : d = d' := heq
    have hdd : precDate D p.1 = precDate D p'.1 := by
      rw [hpd, hp'd, hde]
    exact absurd (hinj p hp p' hp' hpD hp'D hdd) (ne_of_lt hlt)

theorem alignWeights_eq {α : Type} (D : List ℕ) (W' : List (ℕ × α))
    (hW : W'.Pairwise (fun a b => a.1 < b.1))
    (hinj : ∀ p ∈ W', ∀ p' ∈ W', p.1 ∉ D → p'.1 ∉ D →
      precDate D p.1 = precDate D p'.1 → p.1 = p'.1) :
    alignWeights D W' = W'.filterMap (alignTarget D (W'.map Prod.fst)) := by
  unfold alignWeights
  rw [foldl_alignStep D _ W' [] (by simp) (alignTarget_pairwise D W' hW hinj)]
  simp

theorem portfolioSlice_ok {α : Type} (D : List ℕ) (W : List (ℕ × α))
    (d0 dl : ℕ) (newD : List ℕ) (A : List (ℕ × α))
    (hd0 : D.head? = some d0) (hdl : D.getLast? = some dl)
    (hok : portfolioSlice D W = .ok (newD, A)) :
    A = (alignWeights D (restrictSpan d0 dl W)).insertionSort keyle ∧
    ∃ q0 r0, A.head? = some (q0, r0) ∧
      newD = D.filter (fun d => decide (q0 ≤ d)) := by
  unfold portfolioSlice at hok
  rw [hd0, hdl] at hok
  dsimp only at hok
  split at hok
  · cases hok
  · next q hh =>
      rw [Except.ok.injEq, Prod.mk.injEq] at hok
      refine ⟨hok.2.symm, q.1, q.2, ?_, hok.1.symm⟩
      rw [← hok.2]
      simpa using hh


theorem setLoc_keys_nodup {α : Type} (acc : List (ℕ × α)) (k : ℕ) (r : α)
    (h : (acc.map Prod.fst).Nodup) : ((setLoc acc k r).map Prod.fst).Nodup := by
  unfold setLoc
  split
  · have hmap : (acc.map (fun p => if p.1 == k then (k, r) else p)).map Prod.fst =
        acc.map Prod.fst := by
      rw [List.map_map]
      apply List.map_congr_left
      intro p _
      by_cases hpk : p.1 = k
      · simp [hpk]
      · simp [hpk]
    rw [hmap]
    exact h
  · next hany =>
      rw [List.map_append, List.nodup_append]
      refine ⟨h, by simp, ?_⟩
      intro x hx
      simp only [List.map_cons, List.map_nil, List.mem_singleton]
      intro hxk
      subst hxk
      obtain ⟨p, hp, rfl⟩ := List.mem_map.mp hx
      exact hany (by rw [List.any_eq_true]; exact ⟨p, hp, by simp⟩)

theorem setLoc_find_replace {α : Type} (k : ℕ) (r : α) :
    ∀ (acc : List (ℕ × α)), acc.any (fun p => p.1 == k) = true →
      (acc.map (fun p => if p.1 == k then (k, r) else p)).find?
        (fun q => q.1 == k) = some (k, r) := by
  intro acc
  induction acc with
  | nil => intro h; simp at h
  | cons p t ih =>
      intro h
      by_cases hpk : p.1 = k
      · rw [List.map_cons, if_pos (by simp [hpk]),
          List.find?_cons_of_pos _ (by simp)]
      · have hany : t.any (fun p => p.1 == k) = true := by
          rw [List.any_cons] at h
          simpa [hpk] using h
        rw [List.map_cons, if_neg (by simp [hpk]),
          List.find?_cons_of_neg _ (by simp [hpk])]
        exact ih hany

theorem append_find_last {α : Type} (k : ℕ) (r : α) :
    ∀ (acc : List (ℕ × α)), acc.any (fun p => p.1 == k) = false →
      (acc ++ [(k, r)]).find? (fun q => q.1 == k) = some (k, r) := by
  intro acc
  induction acc with
  | nil => intro _; simp
  | cons p t ih =>
      intro h
      rw [List.any_cons, Bool.or_eq_false_iff] at h
      rw [List.cons_append, List.find?_cons_of_neg _ (by simp [h.1])]
      exact ih h.2

theorem setLoc_find_self {α : Type} (acc : List (ℕ × α)) (k : ℕ) (r : α) :
    (setLoc acc k r).find? (fun q => q.1 == k) = some (k, r) := by
  unfold setLoc
  split
  · next h => exact setLoc_find_replace k r acc h
  · next h =>
      rw [Bool.not_eq_true] at h
      exact append_find_last k r acc h

theorem map_replace_find_other {α : Type} (k d : ℕ) (hne : k ≠ d) (r : α) :
    ∀ (acc : List (ℕ × α)),
      (acc.map (fun p => if p.1 == k then (k, r) else p)).find?
        (fun q => q.1 == d) = acc.find? (fun q => q.1 == d) := by
  intro acc
  induction acc with
  | nil => rfl
  | cons p t ih =>
      by_cases hpk : p.1 = k
      · rw [List.map_cons, if_pos (by simp [hpk]),
          List.find?_cons_of_neg _ (by simp [hne]),
          List.find?_cons_of_neg _ (by simp [hpk, hne])]
        exact ih
      · rw [List.map_cons, if_neg (by simp [hpk])]
        by_cases hpd : p.1 = d
        · rw [List.find?_cons_of_pos _ (by simp [hpd]),
            List.find?_cons_of_pos _ (by simp [hpd])]
        · rw [List.find?_cons_of_neg _ (by simp [hpd]),
            List.find?_cons_of_neg _ (by simp [hpd])]
          exact ih

theorem append_find_other {α : Type} (k d : ℕ) (hne : k ≠ d) (r : α) :
    ∀ (acc : List (ℕ × α)),
      (acc ++ [(k, r)]).find? (fun q => q.1 == d) =
        acc.find? (fun q => q.1 == d) := by
  intro acc
  induction acc with
  | nil =>
      rw [List.nil_append, List.find?_cons_of_neg _ (by simp [hne])]
  | cons p t ih =>
      by_cases hpd : p.1 = d
      · rw [List.cons_append, List.find?_cons_of_pos _ (by simp [hpd]),
          List.find?_cons_of_pos _ (by simp [hpd])]
      · rw [List.cons_append, List.find?_cons_of_neg _ (by simp [hpd]),
          List.find?_cons_of_neg _ (by simp [hpd])]
        exact ih

theorem setLoc_find_other {α : Type} (acc : List (ℕ × α)) (k d : ℕ) (r : α)
    (hne : k ≠ d) :
    (setLoc acc k r).find? (fun q => q.1 == d) =
      acc.find? (fun q => q.1 == d) := by
  unfold setLoc
  split
  · exact map_replace_find_other k d hne r acc
  · exact append_find_other k d hne r acc

/-- The `loc`-assignment fold is a last-writer-wins map: the entry stored
at key `d` is the LAST row of the processed list whose `alignTarget`
lands on `d`, falling back to the initial accumulator's entry. -/
theorem foldl_alignStep_find {α : Type} (D K : List ℕ) :
    ∀ (l acc : List (ℕ × α)) (d : ℕ),
      (l.foldl (alignStep D K) acc).find? (fun q => q.1 == d) =
        (((l.filterMap (alignTarget D K)).filter
          (fun q => q.1 == d)).getLast?).or (acc.find? (fun q => q.1 == d)) := by
  intro l
  induction l with
  | nil => intro acc d; rfl
  | cons p t ih =>
      intro acc d
      rw [List.foldl_cons, alignStep_eq_target]
      cases ht : alignTarget D K p with
      | none =>
          dsimp only
          rw [ih, List.filterMap_cons_none ht]
      | some q =>
          dsimp only
          rw [ih, List.filterMap_cons_some ht]
          by_cases hqd : q.1 = d
          · subst hqd
            rw [List.filter_cons_of_pos (by simp)]
            cases hrest : (t.filterMap (alignTarget D K)).filter
                (fun x => x.1 == q.1) with
            | nil =>
                show (setLoc acc q.1 q.2).find? (fun x => x.1 == q.1) = some q
                exact setLoc_find_self acc q.1 q.2
            | cons a rest =>
                rw [List.getLast?_cons_cons,
                  List.getLast?_eq_getLast_of_ne_nil (List.cons_ne_nil a rest)]
                rfl
          · rw [List.filter_cons_of_neg (by simp [hqd])]
            cases hg : ((t.filterMap (alignTarget D K)).filter
                (fun x => x.1 == d)).getLast? with
            | none =>
                show (setLoc acc q.1 q.2).find? (fun x => x.1 == d) =
                  acc.find? (fun x => x.1 == d)
                exact setLoc_find_other acc q.1 d q.2 hqd
            | some x => rfl

theorem foldl_alignStep_keys_nodup {α : Type} (D K : List ℕ) :
    ∀ (l acc : List (ℕ × α)), (acc.map Prod.fst).Nodup →
      ((l.foldl (alignStep D K) acc).map Prod.fst).Nodup := by
  intro l
  induction l with
  | nil => intro acc h; exact h
  | cons p t ih =>
      intro acc h
      rw [List.foldl_cons, alignStep_eq_target]
      cases ht : alignTarget D K p with
      | none => dsimp only; exact ih acc h
      | some q => dsimp only; exact ih _ (setLoc_keys_nodup acc q.1 q.2 h)

theorem alignWeights_keys_nodup {α : Type} (D : List ℕ) (W' : List (ℕ × α)) :
    ((alignWeights D W').map Prod.fst).Nodup :=
  foldl_alignStep_keys_nodup D _ W' [] (by simp)

/-- Content of the accumulated `date_adjusted_weight` frame with no side
conditions: looking up key `d` returns the last target row for `d`. -/
theorem alignWeights_find {α : Type} (D : List ℕ) (W' : List (ℕ × α)) (d : ℕ) :
    (alignWeights D W').find? (fun q => q.1 == d) =
      ((W'.filterMap (alignTarget D (W'.map Prod.fst))).filter
        (fun q => q.1 == d)).getLast? := by
  unfold alignWeights
  rw [foldl_alignStep_find]
  cases hg : ((W'.filterMap (alignTarget D (W'.map Prod.fst))).filter
      (fun q => q.1 == d)).getLast? <;> rfl

theorem mem_iff_find_keyNodup {α : Type} (L : List (ℕ × α))
    (h : (L.map Prod.fst).Nodup) (d : ℕ) (r : α) :
    (d, r) ∈ L ↔ L.find? (fun q => q.1 == d) = some (d, r) := by
  constructor
  · intro hm
    cases hf : L.find? (fun q => q.1 == d) with
    | none =>
        rw [List.find?_eq_none] at hf
        exact absurd (by simp : (((d, r) : ℕ × α).1 == d) = true) (hf (d, r) hm)
    | some q =>
        have hqm := List.mem_of_find?_eq_some hf
        have hqd : q.1 = d := by simpa using List.find?_some hf
        have heq : q = (d, r) :=
          List.inj_on_of_nodup_map h hqm hm (by simp [hqd])
        rw [heq]
  · intro hf
    exact List.mem_of_find?_eq_some hf

theorem filterMap_filter_single {α : Type} (f : ℕ × α → Option (ℕ × α))
    (d : ℕ) (p pt : ℕ × α) :
    ∀ (l : List (ℕ × α)), l.Nodup → p ∈ l →
      (∀ x ∈ l, ∀ q, f x = some q → q.1 = d → x = p) →
      f p = some pt → pt.1 = d →
      (l.filterMap f).filter (fun q => q.1 == d) = [pt] := by
  intro l
  induction l with
  | nil => intro _ hp; simp at hp
  | cons x t ih =>
      intro hnd hp huniq hfp hptd
      rcases List.mem_cons.mp hp with rfl | hpmem
      · rw [List.filterMap_cons_some hfp,
          List.filter_cons_of_pos (by simp [hptd])]
        have hempty : (t.filterMap f).filter (fun q => q.1 == d) = [] := by
          rw [List.filter_eq_nil_iff]
          intro q hq
          obtain ⟨x', hx', hfx'⟩ := List.mem_filterMap.mp hq
          simp only [beq_iff_eq]
          intro hqd
          have hx'p := huniq x' (List.mem_cons_of_mem _ hx') q hfx' hqd
          exact (List.nodup_cons.mp hnd).1 (hx'p ▸ hx')
        rw [hempty]
      · cases hfx : f x with
        | none =>
            rw [List.filterMap_cons_none hfx]
            exact ih (List.nodup_cons.mp hnd).2 hpmem
              (fun x' hx' => huniq x' (List.mem_cons_of_mem _ hx')) hfp hptd
        | some q =>
            rw [List.filterMap_cons_some hfx]
            have hqd : ¬ (q.1 = d) := by
              intro hqd
              have hxp := huniq x (List.mem_cons_self _ _) q hfx hqd
              exact (List.nodup_cons.mp hnd).1 (hxp.symm ▸ hpmem)
            rw [List.filter_cons_of_neg (by simp [hqd])]
            exact ih (List.nodup_cons.mp hnd).2 hpmem
              (fun x' hx' => huniq x' (List.mem_cons_of_mem _ hx')) hfp hptd

/-- When `d` has no explicit schedule row, the target rows landing on `d`
are exactly the off-index rows whose preceding price date is `d`, each
relocated to `d` — in original schedule order. -/
theorem filterMap_filter_moved {α : Type} (D K : List ℕ) (d : ℕ)
    (hdK : d ∉ K) :
    ∀ (l : List (ℕ × α)), (∀ x ∈ l, x.1 ∈ K) →
      (l.filterMap (alignTarget D K)).filter (fun q => q.1 == d) =
        (l.filter (fun x => decide (x.1 ∉ D ∧ precDate D x.1 = some d))).map
          (fun x => (d, x.2)) := by
  intro l
  induction l with
  | nil => intro _; rfl
  | cons x t ih =>
      intro hK
      have hxK : x.1 ∈ K := hK x (List.mem_cons_self _ _)
      have ihK := ih (fun x' hx' => hK x' (List.mem_cons_of_mem _ hx'))
      by_cases hxD : x.1 ∈ D
      · have ht : alignTarget D K x = some x := by
          unfold alignTarget
          rw [if_pos hxD]
        rw [List.filterMap_cons_some ht,
          List.filter_cons_of_neg
            (by simp only [beq_iff_eq]; intro h; exact hdK (h ▸ hxK)),
          List.filter_cons_of_neg (by simp [hxD]), ihK]
      · cases hpd : precDate D x.1 with
        | none =>
            have ht : alignTarget D K x = none := by
              unfold alignTarget
              rw [if_neg hxD, hpd]
            rw [List.filterMap_cons_none ht,
              List.filter_cons_of_neg (by simp [hpd]), ihK]
        | some dd =>
            by_cases hdd : dd = d
            · subst hdd
              have ht : alignTarget D K x = some (dd, x.2) := by
                simp [alignTarget, hxD, hpd, hdK]
              rw [List.filterMap_cons_some ht,
                List.filter_cons_of_pos (by simp),
                List.filter_cons_of_pos (by simp [hxD, hpd]),
                List.map_cons, ihK]
            · by_cases hddK : dd ∈ K
              · have ht : alignTarget D K x = none := by
                  simp [alignTarget, hxD, hpd, hddK]
                rw [List.filterMap_cons_none ht,
                  List.filter_cons_of_neg (by simp [hpd, hdd]), ihK]
              · have ht : alignTarget D K x = some (dd, x.2) := by
                  simp [alignTarget, hxD, hpd, hddK]
                rw [List.filterMap_cons_some ht,
                  List.filter_cons_of_neg (by simp [hdd]),
                  List.filter_cons_of_neg (by simp [hpd, hdd]), ihK]

/-- C5 amended: per schedule date `w` in the price span, an exact-match
row is kept at `w`; an off-index row whose preceding price date `d` has
an explicit schedule row is discarded in favour of that row; off-index
rows are moved to their preceding price date `d`, and when several
off-index dates share one `d` the LAST such row is the one stored at `d`
(the `loc`-assignment overwrites earlier moves); the aligned index is a
strictly ascending duplicate-free subset of the price index; and the
price index is re-sliced to start at the aligned schedule's first date
with its end unchanged.  The first conjunct is the complete content
characterization: the row stored at any date `d` is the last schedule
row whose alignment target lands on `d`. -/
theorem c5_alignment {α : Type} (D : List ℕ) (W : List (ℕ × α))
    (d0 dl : ℕ) (newD : List ℕ) (A : List (ℕ × α))
    (hD : D.Pairwise (· < ·))
    (hW : W.Pairwise (fun a b => a.1 < b.1))
    (hd0 : D.head? = some d0) (hdl : D.getLast? = some dl)
    (hok : portfolioSlice D W = .ok (newD, A)) :
    (∀ d r, (d, r) ∈ A ↔
      (((restrictSpan d0 dl W).filterMap
        (alignTarget D ((restrictSpan d0 dl W).map Prod.fst))).filter
          (fun q => q.1 == d)).getLast? = some (d, r)) ∧
    (∀ p ∈ restrictSpan d0 dl W, p.1 ∈ D → p ∈ A) ∧
    (∀ p ∈ restrictSpan d0 dl W, p.1 ∉ D → ∀ d, precDate D p.1 = some d →
      d ∈ (restrictSpan d0 dl W).map Prod.fst →
        ∃ r, (d, r) ∈ restrictSpan d0 dl W ∧ (d, r) ∈ A) ∧
    (∀ d, d ∉ (restrictSpan d0 dl W).map Prod.fst → ∀ q,
      ((restrictSpan d0 dl W).filter
        (fun x => decide (x.1 ∉ D ∧ precDate D x.1 = some d))).getLast? =
          some q →
      ∀ r, ((d, r) ∈ A ↔ r = q.2)) ∧
    A.Pairwise (fun a b => a.1 < b.1) ∧
    (∀ k ∈ A.map Prod.fst, k ∈ D) ∧
    ∀ w0 s0, A.head? = some (w0, s0) → ∀ x, x ∈ newD ↔ x ∈ D ∧ w0 ≤ x := by
  obtain ⟨hA, q0, r1, hhead, hnewD⟩ :=
    portfolioSlice_ok D W d0 dl newD A hd0 hdl hok
  have hW' : (restrictSpan d0 dl W).Pairwise (fun a b => a.1 < b.1) :=
    hW.sublist (List.filter_sublist W)
  have hWkeys : ((restrictSpan d0 dl W).map Prod.fst).Nodup :=
    List.pairwise_map.mpr (hW'.imp (fun h => ne_of_lt h))
  have hWnd : (restrictSpan d0 dl W).Nodup :=
    hW'.imp (fun h heq => absurd (congrArg Prod.fst heq) (ne_of_lt h))
  have hAkeys : (A.map Prod.fst).Nodup := by
    rw [hA]
    exact (((List.perm_insertionSort keyle
        (alignWeights D (restrictSpan d0 dl W))).map Prod.fst).nodup_iff).mpr
      (alignWeights_keys_nodup D _)
  have hmaster : ∀ d r, (d, r) ∈ A ↔
      (((restrictSpan d0 dl W).filterMap
        (alignTarget D ((restrictSpan d0 dl W).map Prod.fst))).filter
          (fun q => q.1 == d)).getLast? = some (d, r) := by
    intro d r
    have hmem : ((d, r) ∈ A) ↔
        (d, r) ∈ alignWeights D (restrictSpan d0 dl W) := by
      rw [hA]
      exact List.mem_insertionSort keyle
    rw [hmem, mem_iff_find_keyNodup _ (alignWeights_keys_nodup D _),
      alignWeights_find]
  have hkept : ∀ p ∈ restrictSpan d0 dl W, p.1 ∈ D → p ∈ A := by
    intro p hp hpD
    have hsingle : ((restrictSpan d0 dl W).filterMap
        (alignTarget D ((restrictSpan d0 dl W).map Prod.fst))).filter
          (fun q => q.1 == p.1) = [p] := by
      refine filterMap_filter_single _ p.1 p p (restrictSpan d0 dl W)
        hWnd hp ?_ ?_ rfl
      · intro x hx q hq hqd
        rcases alignTarget_cases D _ x q hq with ⟨hxD, hqx⟩ |
          ⟨hxD, dd, hdd, hddK, hqdd⟩
        · rw [hqx] at hqd
          exact List.inj_on_of_nodup_map hWkeys hx hp hqd
        · have hdd_eq : dd = p.1 := by rw [hqdd] at hqd; exact hqd
          exact absurd (List.mem_map.mpr ⟨p, hp, rfl⟩) (hdd_eq ▸ hddK)
      · unfold alignTarget
        rw [if_pos hpD]
    have hmem2 := (hmaster p.1 p.2).mpr (by rw [hsingle]; rfl)
    exact hmem2
  refine ⟨hmaster, hkept, ?_, ?_, ?_, ?_, ?_⟩
  · intro p hp hpD d hd hdK
    obtain ⟨x, hx, hxd⟩ := List.mem_map.mp hdK
    have hdD : d ∈ D := (precDate_spec D p.1 d hd).1
    have hxD : x.1 ∈ D := by rw [hxd]; exact hdD
    have hprod : (d, x.2) = x := by rw [← hxd]
    exact ⟨x.2, by rw [hprod]; exact hx, by rw [hprod]; exact hkept x hx hxD⟩
  · intro d hdK q hq r
    have hmoved := filterMap_filter_moved D
      ((restrictSpan d0 dl W).map Prod.fst) d hdK (restrictSpan d0 dl W)
      (fun x hx => List.mem_map.mpr ⟨x, hx, rfl⟩)
    rw [hmaster d r, hmoved, List.getLast?_map, hq]
    simp only [Option.map_some', Option.some.injEq, Prod.mk.injEq, true_and]
    exact eq_comm
  · have hle : A.Pairwise keyle := by
      rw [hA]
      exact List.sorted_insertionSort keyle _
    have hne2 : A.Pairwise (fun a b => a.1 ≠ b.1) := List.pairwise_map.mp hAkeys
    exact (hle.and hne2).imp (fun h => lt_of_le_of_ne h.1 h.2)
  · intro k hk
    obtain ⟨x, hxA, rfl⟩ := List.mem_map.mp hk
    have hx2 := (hmaster x.1 x.2).mp hxA
    have hmemf := getLastMem _ _ hx2
    obtain ⟨p, hpW, ht⟩ := List.mem_filterMap.mp (List.mem_filter.mp hmemf).1
    exact alignTarget_key_mem D _ p _ ht
  · intro w0 s0 hh x
    rw [hhead] at hh
    have hq : q0 = w0 := congrArg Prod.fst (Option.some.inj hh)
    rw [hnewD, ← hq]
    simp [List.mem_filter]

/-- C5 counterexample: with price index `[0, 5]` and schedule rows at the
off-index dates 1 and 2, both rows have preceding price date 0 and
neither 1 nor 2 has an explicit row at 0, so by the claim both rows are
"moved to 0"; but the aligned schedule keeps only the later row `(0, 20)`
— the earlier moved row `(1, 10)` is overwritten, not moved. -/
theorem c5_counterexample :
    portfolioSlice [0, 5] ([(1, 10), (2, 20)] : List (ℕ × ℕ)) =
      .ok ([0, 5], [(0, 20)]) ∧
    ((0, 10) : ℕ × ℕ) ∉ ([(0, 20)] : List (ℕ × ℕ)) :=
  ⟨rfl, by decide⟩

theorem c5_alignment_witness :
    ((0, 20) : ℕ × ℕ) ∈ ([(0, 20)] : List (ℕ × ℕ)) :=
  (((c5_alignment [0, 5] ([(1, 10), (2, 20)] : List (ℕ × ℕ)) 0 5 [0, 5]
      [(0, 20)] (by decide) (by decide) rfl rfl rfl).2.2.2.1 0 (by decide)
      (2, 20) (by decide) 20).mpr rfl)

theorem filterMapId {α : Type} (f : α → Option α) :
    ∀ (l : List α), (∀ p ∈ l, f p = some p) → l.filterMap f = l := by
  intro l
  induction l with
  | nil => intro _; rfl
  | cons p t ih =>
      intro h
      rw [List.filterMap_cons_some (h p (List.mem_cons_self _ _))]
      rw [ih (fun p' hp' => h p' (List.mem_cons_of_mem _ hp'))]

/-- C9: aligning a schedule whose dates already form a subset of the
price index and whose first date is the price panel's first date returns
the schedule unchanged, and leaves the price index unchanged. -/
theorem c9_alignment_idempotent {α : Type} (D : List ℕ) (W : List (ℕ × α))
    (hD : D.Pairwise (· < ·))
    (hW : W.Pairwise (fun a b => a.1 < b.1))
    (hsub : ∀ k ∈ W.map Prod.fst, k ∈ D)
    (hfirst : (W.map Prod.fst).head? = D.head?)
    (hne : W ≠ []) :
    portfolioSlice D W = .ok (D, W) := by
  obtain ⟨⟨k0, r0⟩, W1, rfl⟩ : ∃ p W1, W = p :: W1 := by
    cases W with
    | nil => exact absurd rfl hne
    | cons p W1 => exact ⟨p, W1, rfl⟩
  have hd0 : D.head? = some k0 := by rw [← hfirst]; rfl
  have hDne : D ≠ [] := by
    intro h
    rw [h] at hd0
    cases hd0
  have hdl := List.getLast?_eq_getLast_of_ne_nil hDne
  have hkeyD : ∀ p ∈ (k0, r0) :: W1, p.1 ∈ D :=
    fun p hp => hsub p.1 (List.mem_map.mpr ⟨p, hp, rfl⟩)
  have hspan : restrictSpan k0 (D.getLast hDne) ((k0, r0) :: W1) =
      (k0, r0) :: W1 := by
    unfold restrictSpan
    apply List.filter_eq_self.mpr
    intro p hp
    rw [decide_eq_true_eq]
    exact ⟨sorted_head_le D k0 hD hd0 p.1 (hkeyD p hp),
      sorted_le_getLast D hD (D.getLast hDne) hdl p.1 (hkeyD p hp)⟩
  have htgt : ∀ p ∈ (k0, r0) :: W1,
      alignTarget D (((k0, r0) :: W1).map Prod.fst) p = some p := by
    intro p hp
    unfold alignTarget
    rw [if_pos (hkeyD p hp)]
  have hinj' : ∀ p ∈ (k0, r0) :: W1, ∀ p' ∈ (k0, r0) :: W1,
      p.1 ∉ D → p'.1 ∉ D → precDate D p.1 = precDate D p'.1 → p.1 = p'.1 :=
    fun p hp p' hp' hnD => absurd (hkeyD p hp) hnD
  have hsort : ((k0, r0) :: W1).insertionSort keyle = (k0, r0) :: W1 :=
    List.Sorted.insertionSort_eq (hW.imp (fun h => le_of_lt h))
  have hfilD : D.filter (fun d => decide (k0 ≤ d)) = D := by
    apply List.filter_eq_self.mpr
    intro x hx
    rw [decide_eq_true_eq]
    exact sorted_head_le D k0 hD hd0 x hx
  unfold portfolioSlice
  rw [hd0, hdl]
  dsimp only
  rw [hspan, alignWeights_eq D _ hW hinj', filterMapId _ _ htgt, hsort]
  simp only [List.head?_cons]
  dsimp only
  rw [hfilD]

theorem c9_alignment_idempotent_witness :
    portfolioSlice [0, 1, 2] ([(0, 5), (2, 7)] : List (ℕ × ℕ)) =
      .ok ([0, 1, 2], [(0, 5), (2, 7)]) :=
  c9_alignment_idempotent [0, 1, 2] [(0, 5), (2, 7)] (by decide) (by decide)
    (by decide) (by decide) (by decide)

/-- C8 counterexample: with price columns `{0, 1}` and the single weight
column `{0}` the two column sets differ, yet column selection succeeds
(the extra price column 1 is silently dropped) instead of raising the
claimed fatal configuration error. -/
theorem c8_counterexample :
    selectColumns [0, 1] [0] = .ok [0] ∧ (1 : ℕ) ∈ [0, 1] ∧ (1 : ℕ) ∉ [0] :=
  ⟨rfl, by decide, by decide⟩

/-- C8 amended: an empty schedule after alignment aborts `slice` with the
uncaught `IndexError` (before any simulation runs), and a weight column
missing from the price panel aborts loading with the `KeyError`; but a
price column absent from the weight schedule is silently dropped by the
column selection rather than reported. -/
theorem c8_amended :
    (∀ (α : Type) (D : List ℕ) (d0 dl : ℕ),
      D.head? = some d0 → D.getLast? = some dl →
      portfolioSlice D ([] : List (ℕ × α)) =
        .error "IndexError: empty aligned weight schedule") ∧
    (∀ dataCols weightCols : List ℕ, (∃ c ∈ weightCols, c ∉ dataCols) →
      selectColumns dataCols weightCols =
        .error "KeyError: weight column missing from the price frame") ∧
    (∀ dataCols weightCols : List ℕ, (∀ c ∈ weightCols, c ∈ dataCols) →
      selectColumns dataCols weightCols = .ok weightCols) := by
  refine ⟨?_, ?_, ?_⟩
  · intro α D d0 dl hd0 hdl
    unfold portfolioSlice
    rw [hd0, hdl]
    rfl
  · rintro dataCols weightCols ⟨c, hc, hcn⟩
    unfold selectColumns
    have hall : ¬ (weightCols.all (fun c => decide (c ∈ dataCols)) = true) := by
      rw [List.all_eq_true]
      intro hall
      exact hcn (by simpa using hall c hc)
    rw [if_neg hall]
  · intro dataCols weightCols h
    unfold selectColumns
    rw [if_pos]
    rw [List.all_eq_true]
    intro c hc
    simpa using h c hc

theorem c8_amended_witness :
    portfolioSlice [5] ([] : List (ℕ × ℕ)) =
      .error "IndexError: empty aligned weight schedule" ∧
    selectColumns [0] [0, 1] =
      .error "KeyError: weight column missing from the price frame" ∧
    selectColumns [0, 1] [0, 1] = .ok [0, 1] :=
  ⟨c8_amended.1 ℕ [5] 5 5 rfl rfl,
    c8_amended.2.1 [0] [0, 1] ⟨1, by decide, by decide⟩,
    c8_amended.2.2 [0, 1] [0, 1] (by decide)⟩
